import Mathlib

/-!
# Formal model of the fixed-capacity object pool

This file is a shallow embedding of the object pool of `src/Pool.h`
(`Pool<OBJ, NUM_OBJS>`, two parallel pointer arrays `_available` / `_inUse`)
and of its variant in `src/MultisetPool.h` (two `std::multiset<OBJ*>`),
together with proofs about their behaviour.

Modelling choices:
* A pointer `OBJ*` is an `Option Nat`: `none` is the null pointer, `some v`
  is a pointer to the pool-owned instance with construction index `v`
  (the `v`-th object created by the constructor).
* The content of the owned instances is a list over an abstract type `C`
  (the innards of `OBJ`); `OBJ::reset()` is an abstract function `C → C`.
* `std::find` / `std::find_if` over an array become `findSlot`, the index of
  the first element satisfying the predicate.
* Writes through a possibly-end iterator (`*iter = mem` in `acquire`,
  `*iter = mem` in `release`) and a method call through a possibly-null
  pointer (`obj->reset()`) are undefined behaviour in the source; the
  operations therefore return `Option`, with `none` for the undefined case.
-/

namespace PoolModel

/-- A pool pointer value: `none` models a null `OBJ*`, `some v` models a
pointer to the pool-owned instance with construction index `v`. -/
abbrev ORef := Option Nat

/-- State of `Pool<OBJ, NUM_OBJS>` from `src/Pool.h`: the `_available` and
`_inUse` arrays of object pointers, plus the contents of the owned
instances, indexed by construction order. -/
structure PoolState (C : Type) where
  available : List ORef
  inUse : List ORef
  content : List C
deriving DecidableEq

/-- Models `std::find_if` (and `std::find`) over a sequence: the index of the
first element satisfying `p`, or `none` when the search hits the end
iterator. -/
def findSlot {α : Type} (p : α → Bool) : List α → Option Nat
  | [] => none
  | x :: xs => if p x then some 0 else (findSlot p xs).map (· + 1)

/-- Applies `f` to the element at index `i` of a list, leaving everything
else unchanged (models `obj->reset()` acting on the pointed-to instance). -/
def modifyAt {C : Type} (f : C → C) : Nat → List C → List C
  | _, [] => []
  | 0, c :: cs => f c :: cs
  | n + 1, c :: cs => c :: modifyAt f n cs

/-- `Pool::Pool()`: `_available` is filled slot by slot with the `NUM_OBJS`
newly constructed objects (the `i`-th slot receives the `i`-th `new OBJ{}`),
`_inUse` is filled with null pointers, and every instance holds the
default-constructed content `d`. -/
def initPool {C : Type} (N : Nat) (d : C) : PoolState C :=
  ⟨(List.range N).map some, List.replicate N none, List.replicate N d⟩

/-- `Pool::acquire()`: scan `_available` for the first non-null pointer.
If there is none the pool is exhausted and the null pointer is returned with
the state unchanged.  Otherwise the slot is nulled, `_inUse` is scanned for
its first null slot and the pointer is stored there; that store is unchecked
in the source ("we don't have to check for iter == std::end"), so a failed
scan is undefined behaviour, modelled by the outer `none`. -/
def acquire {C : Type} (s : PoolState C) : Option (ORef × PoolState C) :=
  match findSlot (fun o => o.isSome) s.available with
  | none => some (none, s)
  | some i =>
    let mem := s.available.getD i none
    match findSlot (fun o => o == none) s.inUse with
    | none => none
    | some j => some (mem, ⟨s.available.set i none, s.inUse.set j mem, s.content⟩)

/-- `Pool::release(obj)`: scan `_inUse` for the pointer value `obj`; when it
is absent, silently return with the state unchanged.  When it is found the
source calls `obj->reset()` — undefined behaviour when `obj` is the null
pointer (which the scan does find whenever `_inUse` holds a null marker) —
then nulls the `_inUse` slot, scans `_available` for its first null slot and
stores `obj` there; that store is again unchecked, so a failed scan is
undefined behaviour.  Both undefined cases are modelled by `none`. -/
def release {C : Type} (rst : C → C) (s : PoolState C) (obj : ORef) :
    Option (PoolState C) :=
  match findSlot (fun o => o == obj) s.inUse with
  | none => some s
  | some j =>
    match obj with
    | none => none
    | some v =>
      match findSlot (fun o => o == none) s.available with
      | none => none
      | some i =>
        some ⟨s.available.set i (some v), s.inUse.set j none,
          modifyAt rst v s.content⟩

/-- Number of occurrences of the value `a` in a list (used to count how
often a given pointer value occurs in the tracking arrays). -/
def countV {α : Type} [DecidableEq α] (a : α) : List α → Nat
  | [] => 0
  | x :: xs => (if x = a then 1 else 0) + countV a xs

/-- Number of non-null entries of `_available`: the free instances. -/
def numAvailable {C : Type} (s : PoolState C) : Nat :=
  s.available.countP (fun o => o.isSome)

/-- Number of non-null entries of `_inUse`: the outstanding loans. -/
def numInUse {C : Type} (s : PoolState C) : Nat :=
  s.inUse.countP (fun o => o.isSome)

/-- The pool states reachable from a freshly constructed pool by sequences
of `acquire` / `release` calls whose source execution is defined. -/
inductive Reachable {C : Type} (N : Nat) (rst : C → C) (d : C) :
    PoolState C → Prop
  | init : Reachable N rst d (initPool N d)
  | step_acquire {s s' : PoolState C} {r : ORef} : Reachable N rst d s →
      acquire s = some (r, s') → Reachable N rst d s'
  | step_release {s s' : PoolState C} {obj : ORef} : Reachable N rst d s →
      release rst s obj = some s' → Reachable N rst d s'

/-- The pool invariant: both tracking arrays have length `N`, every owned
instance occurs exactly once across the two arrays, no foreign pointer
occurs at all, and free plus lent instances number exactly `N`. -/
structure Inv {C : Type} (N : Nat) (s : PoolState C) : Prop where
  lenAvail : s.available.length = N
  lenInUse : s.inUse.length = N
  lenContent : s.content.length = N
  count_lt : ∀ v, v < N → countV (some v) (s.available ++ s.inUse) = 1
  count_ge : ∀ v, N ≤ v → countV (some v) (s.available ++ s.inUse) = 0
  sum_eq : numAvailable s + numInUse s = N

/-! ## Helper lemmas about `findSlot`, `List.set`, `List.count` -/

theorem findSlot_eq_none {α : Type} {p : α → Bool} :
    ∀ {l : List α}, findSlot p l = none → ∀ x ∈ l, p x = false := by
  intro l
  induction l with
  | nil => intro _ x hx; cases hx
  | cons y ys ih =>
    intro h x hx
    by_cases hy : p y
    · simp [findSlot, hy] at h
    · rcases List.mem_cons.mp hx with rfl | hx
      · simpa using hy
      · refine ih ?_ x hx
        simp only [findSlot, hy, if_false, Bool.false_eq_true] at h
        exact Option.map_eq_none.mp h

theorem findSlot_lt_length {α : Type} {p : α → Bool} :
    ∀ {l : List α} {i : Nat}, findSlot p l = some i → i < l.length := by
  intro l
  induction l with
  | nil => intro i h; simp [findSlot] at h
  | cons y ys ih =>
    intro i h
    by_cases hy : p y
    · simp only [findSlot, hy, if_true] at h
      cases h
      simp
    · simp only [findSlot, hy, if_false, Bool.false_eq_true] at h
      rcases Option.map_eq_some.mp h with ⟨j, hj, rfl⟩
      have := ih hj
      simp only [List.length_cons]
      omega

theorem findSlot_getD {α : Type} {p : α → Bool} (a : α) :
    ∀ {l : List α} {i : Nat}, findSlot p l = some i → p (l.getD i a) = true := by
  intro l
  induction l with
  | nil => intro i h; simp [findSlot] at h
  | cons y ys ih =>
    intro i h
    by_cases hy : p y
    · simp only [findSlot, hy, if_true] at h
      cases h
      simpa using hy
    · simp only [findSlot, hy, if_false, Bool.false_eq_true] at h
      rcases Option.map_eq_some.mp h with ⟨j, hj, rfl⟩
      simpa using ih hj

theorem findSlot_isSome_of_mem {α : Type} {p : α → Bool} {x : α} :
    ∀ {l : List α}, x ∈ l → p x = true → (findSlot p l).isSome = true := by
  intro l
  induction l with
  | nil => intro hx; cases hx
  | cons y ys ih =>
    intro hx hp
    rcases List.mem_cons.mp hx with rfl | hx
    · simp [findSlot, hp]
    · by_cases hy : p y
      · simp [findSlot, hy]
      · simp only [findSlot, hy, if_false, Bool.false_eq_true]
        have := ih hx hp
        rcases Option.isSome_iff_exists.mp this with ⟨j, hj⟩
        simp [hj]

theorem countV_append {α : Type} [DecidableEq α] (a : α) :
    ∀ (l1 l2 : List α), countV a (l1 ++ l2) = countV a l1 + countV a l2 := by
  intro l1 l2
  induction l1 with
  | nil => simp [countV]
  | cons y ys ih =>
    simp only [List.cons_append, countV, List.append_eq]
    rw [ih]
    omega

theorem countV_eq_zero_of_not_mem {α : Type} [DecidableEq α] {a : α} :
    ∀ {l : List α}, a ∉ l → countV a l = 0 := by
  intro l
  induction l with
  | nil => intro _; rfl
  | cons y ys ih =>
    intro h
    have hy : ¬ y = a := fun hc => h (hc ▸ List.mem_cons_self y ys)
    have hys : a ∉ ys := fun hc => h (List.mem_cons_of_mem y hc)
    simp [countV, hy, ih hys]

theorem mem_of_countV_pos {α : Type} [DecidableEq α] {a : α} :
    ∀ {l : List α}, 0 < countV a l → a ∈ l := by
  intro l
  induction l with
  | nil => intro h; simp [countV] at h
  | cons y ys ih =>
    intro h
    by_cases hy : y = a
    · exact hy ▸ List.mem_cons_self y ys
    · simp only [countV, hy, if_false] at h
      exact List.mem_cons_of_mem y (ih (by omega))

theorem countV_pos_of_mem {α : Type} [DecidableEq α] {a : α} :
    ∀ {l : List α}, a ∈ l → 0 < countV a l := by
  intro l
  induction l with
  | nil => intro h; cases h
  | cons y ys ih =>
    intro h
    rcases List.mem_cons.mp h with rfl | h
    · simp [countV]
    · have := ih h
      by_cases hy : y = a
      · simp [countV, hy]
      · simp [countV, hy]
        omega

theorem countV_some_map (v : Nat) :
    ∀ (l : List Nat), countV (some v) (l.map some) = countV v l := by
  intro l
  induction l with
  | nil => rfl
  | cons y ys ih => simp only [List.map_cons, countV, ih, Option.some.injEq]

theorem countV_range (v : Nat) :
    ∀ (N : Nat), countV v (List.range N) = if v < N then 1 else 0 := by
  intro N
  induction N with
  | zero => simp [countV, List.range_zero]
  | succ n ih =>
    rw [List.range_succ, countV_append, ih]
    by_cases h1 : v < n
    · have h2 : v < n + 1 := by omega
      have h3 : ¬ n = v := by omega
      simp [countV, h1, h2, h3]
    · by_cases h2 : v = n
      · simp [countV, h1, h2]
      · have h3 : ¬ v < n + 1 := by omega
        have h4 : ¬ n = v := fun hc => h2 hc.symm
        simp [countV, h1, h3, h4]

theorem countV_replicate_ne {α : Type} [DecidableEq α] {a b : α} (h : ¬ b = a) :
    ∀ (n : Nat), countV a (List.replicate n b) = 0 := by
  intro n
  induction n with
  | zero => rfl
  | succ m ih => simp [List.replicate_succ, countV, h, ih]

/-- Replacing the element at index `i` (whose old value is `l.getD i b`)
with `b` changes `countV c` by the difference of the matches, stated in
addition form to stay in `Nat`. -/
theorem countV_set_add {α : Type} [DecidableEq α] :
    ∀ (l : List α) (i : Nat) (b c : α), i < l.length →
      countV c (l.set i b) + (if l.getD i b = c then 1 else 0) =
        countV c l + (if b = c then 1 else 0) := by
  intro l
  induction l with
  | nil => intro i b c h; simp at h
  | cons y ys ih =>
    intro i b c h
    cases i with
    | zero =>
      simp only [List.set, List.getD_cons_zero, countV]
      omega
    | succ n =>
      have hn : n < ys.length := by simpa using h
      have := ih n b c hn
      simp only [List.set, countV, List.getD_cons_succ]
      omega

theorem countP_set_add {α : Type} (p : α → Bool) :
    ∀ (l : List α) (i : Nat) (b : α), i < l.length →
      (l.set i b).countP p + (if p (l.getD i b) then 1 else 0) =
        l.countP p + (if p b then 1 else 0) := by
  intro l
  induction l with
  | nil => intro i b h; simp at h
  | cons y ys ih =>
    intro i b h
    cases i with
    | zero =>
      simp only [List.set, List.getD_cons_zero, List.countP_cons]
      by_cases hy : p y <;> by_cases hb : p b <;> simp [hy, hb]
    | succ n =>
      have hn : n < ys.length := by simpa using h
      have := ih n b hn
      simp only [List.set, List.countP_cons, List.getD_cons_succ] at this ⊢
      omega

theorem getD_mem {α : Type} :
    ∀ {l : List α} {i : Nat} (a : α), i < l.length → l.getD i a ∈ l := by
  intro l
  induction l with
  | nil => intro i a h; simp at h
  | cons y ys ih =>
    intro i a h
    cases i with
    | zero => simp [List.getD]
    | succ n =>
      have hn : n < ys.length := by simpa using h
      simp only [List.getD_cons_succ]
      exact List.mem_cons_of_mem _ (ih a hn)

theorem getD_default_eq {α : Type} :
    ∀ {l : List α} {i : Nat} (a b : α), i < l.length → l.getD i a = l.getD i b := by
  intro l
  induction l with
  | nil => intro i a b h; simp at h
  | cons y ys ih =>
    intro i a b h
    cases i with
    | zero => simp
    | succ n =>
      have hn : n < ys.length := by simpa using h
      simpa using ih a b hn

theorem modifyAt_length {C : Type} (f : C → C) :
    ∀ (n : Nat) (l : List C), (modifyAt f n l).length = l.length := by
  intro n l
  induction l generalizing n with
  | nil => cases n <;> simp [modifyAt]
  | cons c cs ih =>
    cases n with
    | zero => simp [modifyAt]
    | succ m => simp [modifyAt, ih]

/-! ## The invariant holds initially and is preserved -/

theorem inv_init {C : Type} (N : Nat) (d : C) : Inv N (initPool N d) := by
  refine ⟨by simp [initPool], by simp [initPool], by simp [initPool], ?_, ?_, ?_⟩
  · intro v hv
    have h3 : countV (some v) (List.replicate N (none : ORef)) = 0 :=
      countV_replicate_ne (by simp) N
    rw [initPool, countV_append, countV_some_map, countV_range, h3]
    simp [hv]
  · intro v hv
    have h3 : countV (some v) (List.replicate N (none : ORef)) = 0 :=
      countV_replicate_ne (by simp) N
    rw [initPool, countV_append, countV_some_map, countV_range, h3]
    have : ¬ v < N := by omega
    simp [this]
  · have h1 : ((List.range N).map some).countP (fun o : ORef => o.isSome) = N := by
      rw [List.countP_eq_length.mpr]
      · simp
      · intro a ha
        rcases List.mem_map.mp ha with ⟨w, _, rfl⟩
        rfl
    have h2 : (List.replicate N (none : ORef)).countP (fun o : ORef => o.isSome) = 0 := by
      rw [List.countP_eq_zero.mpr]
      intro a ha
      rw [List.eq_of_mem_replicate ha]
      simp
    simp [initPool, numAvailable, numInUse, h1, h2]

/-- Moving one instance between the two arrays — nulling a slot holding `a`
in `available` while writing `a` into a slot holding `b` of `inUse` (or the
converse) — preserves every pointer count of the combined arrays. -/
theorem count_append_swap {avail inUse : List ORef} {i j : Nat} {a b : ORef}
    (hi : i < avail.length) (hj : j < inUse.length)
    (hvi : avail.getD i b = a) (hvj : inUse.getD j a = b) (c : ORef) :
    countV c ((avail.set i b) ++ (inUse.set j a)) = countV c (avail ++ inUse) := by
  have h1 := countV_set_add avail i b c hi
  have h2 := countV_set_add inUse j a c hj
  rw [hvi] at h1
  rw [hvj] at h2
  rw [countV_append, countV_append]
  omega

theorem countP_append_swap (p : ORef → Bool) {avail inUse : List ORef}
    {i j : Nat} {a b : ORef} (hi : i < avail.length) (hj : j < inUse.length)
    (hvi : avail.getD i b = a) (hvj : inUse.getD j a = b) :
    (avail.set i b).countP p + (inUse.set j a).countP p =
      avail.countP p + inUse.countP p := by
  have h1 := countP_set_add p avail i b hi
  have h2 := countP_set_add p inUse j a hj
  rw [hvi] at h1
  rw [hvj] at h2
  omega

theorem inv_swap {C : Type} {N : Nat} {s : PoolState C} (hInv : Inv N s)
    {i j : Nat} {a b : ORef} (hi : i < s.available.length)
    (hj : j < s.inUse.length) (hvi : s.available.getD i b = a)
    (hvj : s.inUse.getD j a = b) {content' : List C}
    (hlen : content'.length = N) :
    Inv N ⟨s.available.set i b, s.inUse.set j a, content'⟩ := by
  refine ⟨by simpa using hInv.lenAvail, by simpa using hInv.lenInUse, hlen, ?_, ?_, ?_⟩
  · intro v hv
    have := count_append_swap hi hj hvi hvj (some v)
    simpa [this] using hInv.count_lt v hv
  · intro v hv
    have := count_append_swap hi hj hvi hvj (some v)
    simpa [this] using hInv.count_ge v hv
  · have := countP_append_swap (fun o => o.isSome) hi hj hvi hvj
    have hs := hInv.sum_eq
    simp only [numAvailable, numInUse] at hs ⊢
    omega

theorem inv_acquire {C : Type} {N : Nat} {s s' : PoolState C} {r : ORef}
    (hInv : Inv N s) (h : acquire s = some (r, s')) : Inv N s' := by
  unfold acquire at h
  cases hfa : findSlot (fun o : ORef => o.isSome) s.available with
  | none =>
    rw [hfa] at h
    simp only [Option.some.injEq, Prod.mk.injEq] at h
    rw [← h.2]
    exact hInv
  | some i =>
    rw [hfa] at h
    have hi : i < s.available.length := findSlot_lt_length hfa
    have hv : (s.available.getD i none).isSome = true := findSlot_getD none hfa
    cases hfu : findSlot (fun o : ORef => o == none) s.inUse with
    | none => rw [hfu] at h; simp at h
    | some j =>
      rw [hfu] at h
      have hj : j < s.inUse.length := findSlot_lt_length hfu
      rcases Option.isSome_iff_exists.mp hv with ⟨v, hv'⟩
      have hvj : s.inUse.getD j (some v) = none := by
        have := findSlot_getD (some v) hfu
        simpa using this
      simp only [Option.some.injEq, Prod.mk.injEq] at h
      rw [← h.2]
      have hvi : s.available.getD i none = some v := hv'
      rw [hvi]
      exact inv_swap hInv hi hj hvi hvj hInv.lenContent

theorem inv_release {C : Type} {N : Nat} {rst : C → C} {s s' : PoolState C}
    {obj : ORef} (hInv : Inv N s) (h : release rst s obj = some s') :
    Inv N s' := by
  unfold release at h
  cases hfu : findSlot (fun o : ORef => o == obj) s.inUse with
  | none =>
    rw [hfu] at h
    simp only [Option.some.injEq] at h
    rw [← h]
    exact hInv
  | some j =>
    rw [hfu] at h
    cases obj with
    | none => simp at h
    | some v =>
      have hj : j < s.inUse.length := findSlot_lt_length hfu
      have hvj : s.inUse.getD j none = some v := by
        have := findSlot_getD none hfu
        simpa using this
      cases hfa : findSlot (fun o : ORef => o == none) s.available with
      | none => rw [hfa] at h; simp at h
      | some i =>
        rw [hfa] at h
        have hi : i < s.available.length := findSlot_lt_length hfa
        have hvi : s.available.getD i (some v) = none := by
          have := findSlot_getD (some v) hfa
          simpa using this
        simp only [Option.some.injEq] at h
        rw [← h]
        exact inv_swap hInv hi hj hvi hvj
          (by rw [modifyAt_length]; exact hInv.lenContent)

/-- Every reachable pool state satisfies the invariant. -/
theorem inv_reachable {C : Type} {N : Nat} {rst : C → C} {d : C}
    {s : PoolState C} (h : Reachable N rst d s) : Inv N s := by
  induction h with
  | init => exact inv_init N d
  | step_acquire _ hstep ih => exact inv_acquire ih hstep
  | step_release _ hstep ih => exact inv_release ih hstep

/-! ## Characterizations of `acquire` and `release` -/

theorem findSlot_eq_none_of {α : Type} {p : α → Bool} :
    ∀ {l : List α}, (∀ x ∈ l, p x = false) → findSlot p l = none := by
  intro l
  induction l with
  | nil => intro _; rfl
  | cons y ys ih =>
    intro h
    have hy : p y = false := h y (List.mem_cons_self y ys)
    have hys : findSlot p ys = none := ih (fun x hx => h x (List.mem_cons_of_mem y hx))
    simp [findSlot, hy, hys]

theorem exists_not_of_countP_lt {α : Type} {p : α → Bool} {l : List α}
    (h : l.countP p < l.length) : ∃ x ∈ l, p x = false := by
  by_contra hc
  push_neg at hc
  have : ∀ x ∈ l, p x = true := by
    intro x hx
    cases hp : p x with
    | false => exact absurd hp (hc x hx)
    | true => rfl
  rw [List.countP_eq_length.mpr this] at h
  omega

theorem getD_modifyAt_eq {C : Type} (f : C → C) :
    ∀ (l : List C) (n : Nat) (d : C), n < l.length →
      (modifyAt f n l).getD n d = f (l.getD n d) := by
  intro l
  induction l with
  | nil => intro n d h; simp at h
  | cons c cs ih =>
    intro n d h
    cases n with
    | zero => simp [modifyAt]
    | succ m =>
      have hm : m < cs.length := by simpa using h
      simpa [modifyAt] using ih m d hm

theorem getD_modifyAt_ne {C : Type} (f : C → C) :
    ∀ (l : List C) (n m : Nat) (d : C), ¬ m = n →
      (modifyAt f n l).getD m d = l.getD m d := by
  intro l
  induction l with
  | nil => intro n m d _; cases n <;> rfl
  | cons c cs ih =>
    intro n m d hne
    cases n with
    | zero =>
      cases m with
      | zero => exact absurd rfl hne
      | succ k => simp [modifyAt]
    | succ n' =>
      cases m with
      | zero => simp [modifyAt]
      | succ k =>
        have : ¬ k = n' := fun hc => hne (by omega)
        simpa [modifyAt] using ih n' k d this

/-- An exhausted pool (no non-null entry in `_available`): `acquire` returns
the null pointer and leaves the state untouched. -/
theorem acquire_exhausted {C : Type} {s : PoolState C}
    (h : numAvailable s = 0) : acquire s = some (none, s) := by
  have hall : ∀ x ∈ s.available, (fun o : ORef => o.isSome) x = false := by
    intro x hx
    cases hp : x.isSome with
    | false => exact hp
    | true =>
      have : 0 < s.available.countP (fun o : ORef => o.isSome) :=
        List.countP_pos_iff.mpr ⟨x, hx, hp⟩
      simp only [numAvailable] at h
      omega
  unfold acquire
  rw [findSlot_eq_none_of hall]

/-- A pool with at least one free instance: `acquire` succeeds, returns one
of the `N` owned instances — an instance that was not lent out — and the
successor state keeps the invariant with one fewer free instance. -/
theorem acquire_of_avail {C : Type} {N : Nat} {s : PoolState C}
    (hInv : Inv N s) (h : 0 < numAvailable s) :
    ∃ v s', acquire s = some (some v, s') ∧ v < N ∧ Inv N s' ∧
      numAvailable s' + 1 = numAvailable s ∧ s'.content = s.content ∧
      countV (some v) s.inUse = 0 ∧ 0 < countV (some v) s'.inUse := by
  rcases List.countP_pos_iff.mp h with ⟨x, hx, hpx⟩
  have hfs : (findSlot (fun o : ORef => o.isSome) s.available).isSome = true :=
    findSlot_isSome_of_mem hx hpx
  rcases Option.isSome_iff_exists.mp hfs with ⟨i, hfa⟩
  have hi : i < s.available.length := findSlot_lt_length hfa
  rcases Option.isSome_iff_exists.mp (findSlot_getD none hfa) with ⟨v, hv⟩
  have hmemv : (some v : ORef) ∈ s.available := hv ▸ getD_mem none hi
  have hcava : 0 < countV (some v : ORef) s.available := countV_pos_of_mem hmemv
  have hvN : v < N := by
    by_contra hc
    have h0 := hInv.count_ge v (by omega)
    rw [countV_append] at h0
    omega
  have hcnt1 := hInv.count_lt v hvN
  rw [countV_append] at hcnt1
  have hcuse : countV (some v : ORef) s.inUse = 0 := by omega
  have hjex : ∃ y ∈ s.inUse, (fun o : ORef => o == none) y = true := by
    have hlt : s.inUse.countP (fun o : ORef => o.isSome) < s.inUse.length := by
      have := hInv.sum_eq
      have hlen := hInv.lenInUse
      simp only [numAvailable, numInUse] at this h
      omega
    rcases exists_not_of_countP_lt hlt with ⟨y, hy, hpy⟩
    refine ⟨y, hy, ?_⟩
    cases y with
    | none => rfl
    | some w => simp at hpy
  rcases hjex with ⟨y, hy, hpy⟩
  have hfu' : (findSlot (fun o : ORef => o == none) s.inUse).isSome = true :=
    findSlot_isSome_of_mem hy hpy
  rcases Option.isSome_iff_exists.mp hfu' with ⟨j, hfu⟩
  have hj : j < s.inUse.length := findSlot_lt_length hfu
  have hvj : s.inUse.getD j (some v) = none := by
    have := findSlot_getD (some v) hfu
    simpa using this
  refine ⟨v, ⟨s.available.set i none, s.inUse.set j (some v), s.content⟩, ?_, hvN, ?_, ?_, rfl, hcuse, ?_⟩
  · unfold acquire
    rw [hfa, hfu]
    simp only [hv]
  · exact inv_swap hInv hi hj hv hvj hInv.lenContent
  · have := countP_set_add (fun o : ORef => o.isSome) s.available i none hi
    rw [hv] at this
    simp at this
    simp only [numAvailable] at *
    omega
  · have := countV_set_add s.inUse j (some v) (some v) hj
    rw [hvj] at this
    simp at this
    show 0 < countV (some v) (s.inUse.set j (some v))
    omega

/-- `release` with a pointer that is nowhere in `_inUse` is a silent no-op. -/
theorem release_noop {C : Type} (rst : C → C) {s : PoolState C} {obj : ORef}
    (h : obj ∉ s.inUse) : release rst s obj = some s := by
  have hall : ∀ x ∈ s.inUse, (fun o : ORef => o == obj) x = false := by
    intro x hx
    have : ¬ x = obj := fun hc => h (hc ▸ hx)
    simpa using this
  unfold release
  rw [findSlot_eq_none_of hall]

/-- `release` with a pointer to an instance currently lent out: the scans
find the instance in `_inUse` and a free slot in `_available`, and the call
moves the instance back while resetting its content. -/
theorem release_success_spec {C : Type} {N : Nat} (rst : C → C)
    {s : PoolState C} {v : Nat} (hInv : Inv N s) (hmem : (some v : ORef) ∈ s.inUse) :
    ∃ j i, findSlot (fun o : ORef => o == some v) s.inUse = some j ∧
      findSlot (fun o : ORef => o == none) s.available = some i ∧
      s.available.getD i (some v) = none ∧
      s.inUse.getD j none = some v ∧ v < N ∧
      release rst s (some v) =
        some ⟨s.available.set i (some v), s.inUse.set j none,
          modifyAt rst v s.content⟩ := by
  have hfu' : (findSlot (fun o : ORef => o == some v) s.inUse).isSome = true :=
    findSlot_isSome_of_mem hmem (by simp)
  rcases Option.isSome_iff_exists.mp hfu' with ⟨j, hfu⟩
  have hj : j < s.inUse.length := findSlot_lt_length hfu
  have hvj : s.inUse.getD j none = some v := by
    have := findSlot_getD none hfu
    simpa using this
  have hvN : v < N := by
    by_contra hc
    have h0 := hInv.count_ge v (by omega)
    rw [countV_append] at h0
    have := countV_pos_of_mem hmem
    omega
  have hiex : ∃ y ∈ s.available, (fun o : ORef => o == none) y = true := by
    have huse : 0 < numInUse s :=
      List.countP_pos_iff.mpr ⟨some v, hmem, by simp⟩
    have hlt : s.available.countP (fun o : ORef => o.isSome) < s.available.length := by
      have := hInv.sum_eq
      have hlen := hInv.lenAvail
      simp only [numAvailable, numInUse] at this huse
      omega
    rcases exists_not_of_countP_lt hlt with ⟨y, hy, hpy⟩
    refine ⟨y, hy, ?_⟩
    cases y with
    | none => rfl
    | some w => simp at hpy
  rcases hiex with ⟨y, hy, hpy⟩
  have hfa' : (findSlot (fun o : ORef => o == none) s.available).isSome = true :=
    findSlot_isSome_of_mem hy hpy
  rcases Option.isSome_iff_exists.mp hfa' with ⟨i, hfa⟩
  have hvi : s.available.getD i (some v) = none := by
    have := findSlot_getD (some v) hfa
    simpa using this
  refine ⟨j, i, hfu, hfa, hvi, hvj, hvN, ?_⟩
  unfold release
  rw [hfu, hfa]

/-! ## Iterated acquisition -/

/-- `k` consecutive `acquire()` calls, collecting the returned pointers. -/
def runAcquires {C : Type} : Nat → PoolState C → Option (PoolState C × List ORef)
  | 0, s => some (s, [])
  | k + 1, s =>
    match acquire s with
    | none => none
    | some (r, s') =>
      match runAcquires k s' with
      | none => none
      | some (s'', rs) => some (s'', r :: rs)

theorem numAvailable_init {C : Type} (N : Nat) (d : C) :
    numAvailable (initPool N d) = N := by
  have hs := (inv_init N d).sum_eq
  have h2 : numInUse (initPool N d) = 0 := by
    simp only [numInUse, initPool]
    rw [List.countP_eq_zero.mpr]
    intro a ha
    rw [List.eq_of_mem_replicate ha]
    simp
  omega

theorem runAcquires_of_avail {C : Type} {N : Nat} :
    ∀ (k : Nat) {s : PoolState C}, Inv N s → k ≤ numAvailable s →
      ∃ s' rs, runAcquires k s = some (s', rs) ∧ rs.length = k ∧
        (∀ r ∈ rs, ¬ r = none) ∧ Inv N s' ∧
        numAvailable s' + k = numAvailable s := by
  intro k
  induction k with
  | zero =>
    intro s hInv _
    exact ⟨s, [], rfl, rfl, (by intro r hr; cases hr), hInv, (by omega)⟩
  | succ m ih =>
    intro s hInv hle
    rcases acquire_of_avail hInv (by omega) with
      ⟨v, s1, hacq, _, hInv1, hnum, _, _, _⟩
    rcases ih hInv1 (by omega) with ⟨s2, rs, hrun, hlen, hnn, hInv2, hnum2⟩
    refine ⟨s2, some v :: rs, ?_, by simp [hlen], ?_, hInv2, by omega⟩
    · simp only [runAcquires, hacq, hrun]
    · intro r hr
      rcases List.mem_cons.mp hr with rfl | hr
      · simp
      · exact hnn r hr

/-- C1: starting from a freshly constructed pool of capacity `N ≥ 1`, each
of the first `N` `acquire()` calls succeeds with a non-null pointer, and the
`(N+1)`-th call returns the null exhaustion signal (not undefined behaviour
and not an exception) with the pool unchanged. -/
theorem acquire_n_then_exhausted {C : Type} (N : Nat) (d : C) (_hN : 1 ≤ N) :
    ∃ s' rs, runAcquires N (initPool N d) = some (s', rs) ∧ rs.length = N ∧
      (∀ r ∈ rs, ¬ r = none) ∧ acquire s' = some (none, s') := by
  rcases runAcquires_of_avail N (inv_init N d)
      (by rw [numAvailable_init]) with ⟨s', rs, hrun, hlen, hnn, _, hnum⟩
  refine ⟨s', rs, hrun, hlen, hnn, ?_⟩
  refine acquire_exhausted ?_
  rw [numAvailable_init] at hnum
  omega

theorem acquire_n_then_exhausted_witness :
    1 ≤ 2 ∧
      ∃ s' rs, runAcquires 2 (initPool 2 ()) = some (s', rs) ∧ rs.length = 2 ∧
        (∀ r ∈ rs, ¬ r = none) ∧ acquire s' = some (none, s') :=
  ⟨by omega, acquire_n_then_exhausted 2 () (by omega)⟩

/-- C2: in every reachable pool state, each of the `N` owned instances has
exactly one non-empty slot across `_available` and `_inUse` (never in both,
never in neither), and free plus in-use instances always number `N`. -/
theorem instance_tracked_exactly_once {C : Type} {N : Nat} {rst : C → C}
    {d : C} {s : PoolState C} (hs : Reachable N rst d s) :
    (∀ v, v < N → countV (some v) (s.available ++ s.inUse) = 1) ∧
      numAvailable s + numInUse s = N :=
  ⟨(inv_reachable hs).count_lt, (inv_reachable hs).sum_eq⟩

theorem instance_tracked_exactly_once_witness :
    (∀ v, v < 1 →
        countV (some v) ((initPool 1 ()).available ++ (initPool 1 ()).inUse) = 1) ∧
      numAvailable (initPool 1 ()) + numInUse (initPool 1 ()) = 1 :=
  instance_tracked_exactly_once (Reachable.init : Reachable 1 (fun c : Unit => c) () (initPool 1 ()))

/-- C3: evaluation of the code at the failing input.  On a freshly
constructed pool of capacity 1, `release(nullptr)` finds the null marker in
`_inUse` (slot 0), calls `reset()` through the null pointer and — because a
fully available pool has no empty `_available` slot — goes on to write
through the end iterator of `_available`: undefined behaviour (`none` in the
model), not a state-preserving normal return. -/
theorem release_null_fresh_pool_undefined :
    release (fun c : Unit => c) (initPool 1 ()) none = none := by decide

/-! ## No aliasing of live loans (C4) -/

/-- Sequences of defined `acquire` / `release` steps in which the reference
`r` is never released (all other calls are unrestricted). -/
inductive StepsAvoiding {C : Type} (rst : C → C) (r : ORef) :
    PoolState C → PoolState C → Prop
  | refl (s : PoolState C) : StepsAvoiding rst r s s
  | step_acquire {s t u : PoolState C} {ret : ORef} :
      StepsAvoiding rst r s t → acquire t = some (ret, u) →
      StepsAvoiding rst r s u
  | step_release {s t u : PoolState C} {obj : ORef} :
      StepsAvoiding rst r s t → ¬ obj = r → release rst t obj = some u →
      StepsAvoiding rst r s u

theorem acquire_keeps_inUse {C : Type} {t u : PoolState C} {ret : ORef}
    {v : Nat} (h : acquire t = some (ret, u))
    (hmem : 0 < countV (some v) t.inUse) : 0 < countV (some v) u.inUse := by
  unfold acquire at h
  cases hfa : findSlot (fun o : ORef => o.isSome) t.available with
  | none =>
    rw [hfa] at h
    simp only [Option.some.injEq, Prod.mk.injEq] at h
    rw [← h.2]
    exact hmem
  | some i =>
    rw [hfa] at h
    cases hfu : findSlot (fun o : ORef => o == none) t.inUse with
    | none => rw [hfu] at h; simp at h
    | some j =>
      rw [hfu] at h
      simp only [Option.some.injEq, Prod.mk.injEq] at h
      rw [← h.2]
      have hj : j < t.inUse.length := findSlot_lt_length hfu
      have hvj : t.inUse.getD j (t.available.getD i none) = none := by
        have := findSlot_getD (t.available.getD i none) hfu
        simpa using this
      have := countV_set_add t.inUse j (t.available.getD i none) (some v) hj
      rw [hvj] at this
      simp only [if_neg (by simp : ¬ (none : ORef) = some v)] at this
      show 0 < countV (some v) (t.inUse.set j (t.available.getD i none))
      omega

theorem release_keeps_inUse {C : Type} {rst : C → C} {t u : PoolState C}
    {obj : ORef} {v : Nat} (h : release rst t obj = some u)
    (hne : ¬ obj = some v) (hmem : 0 < countV (some v) t.inUse) :
    0 < countV (some v) u.inUse := by
  unfold release at h
  cases hfu : findSlot (fun o : ORef => o == obj) t.inUse with
  | none =>
    rw [hfu] at h
    simp only [Option.some.injEq] at h
    rw [← h]
    exact hmem
  | some j =>
    rw [hfu] at h
    cases obj with
    | none => simp at h
    | some w =>
      cases hfa : findSlot (fun o : ORef => o == none) t.available with
      | none => rw [hfa] at h; simp at h
      | some i =>
        rw [hfa] at h
        simp only [Option.some.injEq] at h
        rw [← h]
        have hj : j < t.inUse.length := findSlot_lt_length hfu
        have hvj : t.inUse.getD j none = some w := by
          have := findSlot_getD none hfu
          simpa using this
        have := countV_set_add t.inUse j none (some v) hj
        have hgd : t.inUse.getD j none = some w := hvj
        rw [hgd] at this
        simp only [if_neg (by simpa using hne : ¬ (some w : ORef) = some v),
          if_neg (by simp : ¬ (none : ORef) = some v)] at this
        show 0 < countV (some v) (t.inUse.set j none)
        omega

theorem acquire_success_inUse {C : Type} {N : Nat} {s s' : PoolState C}
    {v : Nat} (hInv : Inv N s) (h : acquire s = some (some v, s')) :
    Inv N s' ∧ 0 < countV (some v) s'.inUse := by
  have hpos : 0 < numAvailable s := by
    by_contra hc
    have h0 : numAvailable s = 0 := by omega
    rw [acquire_exhausted h0] at h
    simp at h
  rcases acquire_of_avail hInv hpos with ⟨w, t, hacq, _, hInvt, _, _, _, hcnt⟩
  rw [hacq] at h
  simp only [Option.some.injEq, Prod.mk.injEq] at h
  rcases h with ⟨hw, hst⟩
  cases hw
  rw [← hst]
  exact ⟨hInvt, hcnt⟩

theorem acquire_success_from_avail {C : Type} {s s' : PoolState C} {v : Nat}
    (h : acquire s = some (some v, s')) : 0 < countV (some v) s.available := by
  unfold acquire at h
  cases hfa : findSlot (fun o : ORef => o.isSome) s.available with
  | none => rw [hfa] at h; simp at h
  | some i =>
    rw [hfa] at h
    cases hfu : findSlot (fun o : ORef => o == none) s.inUse with
    | none => rw [hfu] at h; simp at h
    | some j =>
      rw [hfu] at h
      simp only [Option.some.injEq, Prod.mk.injEq] at h
      have hi : i < s.available.length := findSlot_lt_length hfa
      have : s.available.getD i none = some v := h.1
      exact countV_pos_of_mem (this ▸ getD_mem none hi)

/-- C4: two successful `acquire()` calls whose results are both still
outstanding (the first one has not been released in between) return
distinct pointers: no instance is simultaneously lent to two live loans. -/
theorem no_aliasing_of_live_loans {C : Type} {N : Nat} {rst : C → C} {d : C}
    {s s1 s2 s3 : PoolState C} {v : Nat} {w : ORef}
    (hreach : Reachable N rst d s) (hacq1 : acquire s = some (some v, s1))
    (hsteps : StepsAvoiding rst (some v) s1 s2)
    (hacq2 : acquire s2 = some (w, s3)) : ¬ w = some v := by
  have hInv := inv_reachable hreach
  have hstart := acquire_success_inUse hInv hacq1
  have key : Inv N s2 ∧ 0 < countV (some v) s2.inUse := by
    clear hacq2
    induction hsteps with
    | refl => exact hstart
    | step_acquire _ hstep ih =>
      exact ⟨inv_acquire ih.1 hstep, acquire_keeps_inUse hstep ih.2⟩
    | step_release _ hne hstep ih =>
      exact ⟨inv_release ih.1 hstep, release_keeps_inUse hstep hne ih.2⟩
  intro hw
  cases hw
  have havail := acquire_success_from_avail hacq2
  have hvN : v < N := by
    by_contra hc
    have h0 := key.1.count_ge v (by omega)
    rw [countV_append] at h0
    omega
  have h1 := key.1.count_lt v hvN
  rw [countV_append] at h1
  omega

theorem no_aliasing_of_live_loans_witness :
    acquire (initPool 2 ()) =
      some (some 0, ⟨[none, some 1], [some 0, none], [(), ()]⟩) ∧
    acquire (⟨[none, some 1], [some 0, none], [(), ()]⟩ : PoolState Unit) =
      some (some 1, ⟨[none, none], [some 0, some 1], [(), ()]⟩) ∧
    ¬ (some 1 : ORef) = some 0 := by
  have h1 : acquire (initPool 2 ()) =
      some (some 0, ⟨[none, some 1], [some 0, none], [(), ()]⟩) := by decide
  have h2 : acquire (⟨[none, some 1], [some 0, none], [(), ()]⟩ : PoolState Unit) =
      some (some 1, ⟨[none, none], [some 0, some 1], [(), ()]⟩) := by decide
  exact ⟨h1, h2, no_aliasing_of_live_loans
    (Reachable.init : Reachable 2 (fun c : Unit => c) () (initPool 2 ()))
    h1 (StepsAvoiding.refl _) h2⟩

/-! ## Release given back, immediate re-acquire (C5) -/

theorem findSlot_head_true {a : Type} {p : a → Bool} (dflt : a) :
    ∀ {l : List a}, 0 < l.length → p (l.getD 0 dflt) = true ->
      findSlot p l = some 0 := by
  intro l hlen hp
  cases l with
  | nil => simp at hlen
  | cons y ys =>
    simp only [List.getD_cons_zero] at hp
    simp [findSlot, hp]

theorem getD_set_self {a : Type} :
    ∀ {l : List a} {j : Nat} (b d : a), j < l.length ->
      (l.set j b).getD j d = b := by
  intro l
  induction l with
  | nil => intro j b d h; simp at h
  | cons y ys ih =>
    intro j b d h
    cases j with
    | zero => simp
    | succ m =>
      have hm : m < ys.length := by simpa using h
      simpa [List.set] using ih b d hm

theorem acquire_structural {C : Type} {s : PoolState C} {i j : Nat} {v : Nat}
    (hfa : findSlot (fun o : ORef => o.isSome) s.available = some i)
    (hv : s.available.getD i none = some v)
    (hfu : findSlot (fun o : ORef => o == none) s.inUse = some j) :
    acquire s =
      some (some v, (PoolState.mk (s.available.set i none) (s.inUse.set j (some v)) s.content)) := by
  unfold acquire
  rw [hfa, hfu]
  simp only [hv]

/-- C5 counterexample: the claim fails as stated.  In the reachable
capacity-2 state obtained by acquire, acquire, release(second), the first
instance (`some 0`) is still lent out; releasing it and immediately
re-acquiring returns the OTHER instance (`some 1`), because release stores
the freed pointer into the first empty `_available` slot (index 1) while
acquire scans for the first non-empty slot (index 0, holding `some 1`). -/
theorem release_reacquire_counterexample :
    Reachable 2 (fun c : Unit => c) ()
      (PoolState.mk [some 1, none] [some 0, none] [(), ()]) /\
    (some 0 : ORef) ∈ (PoolState.mk [some 1, none] [some 0, none] [(), ()] : PoolState Unit).inUse /\
    release (fun c : Unit => c)
        (PoolState.mk [some 1, none] [some 0, none] [(), ()]) (some 0) =
      some (PoolState.mk [some 1, some 0] [none, none] [(), ()]) /\
    acquire (PoolState.mk [some 1, some 0] [none, none] [(), ()] : PoolState Unit) =
      some (some 1, PoolState.mk [none, some 0] [some 1, none] [(), ()]) /\
    -- the re-acquired pointer is NOT the released one
    (!((some 1 : ORef) = (some 0 : ORef)) : Prop) := by
  refine ⟨?_, by decide, by decide, by decide, by decide⟩
  have h1 : Reachable 2 (fun c : Unit => c) () (initPool 2 ()) := Reachable.init
  have h2 := Reachable.step_acquire h1
    (show acquire (initPool 2 ()) =
        some (some 0, PoolState.mk [none, some 1] [some 0, none] [(), ()]) by decide)
  have h3 := Reachable.step_acquire h2
    (show acquire (PoolState.mk [none, some 1] [some 0, none] [(), ()] : PoolState Unit) =
        some (some 1, PoolState.mk [none, none] [some 0, some 1] [(), ()]) by decide)
  exact Reachable.step_release h3
    (show release (fun c : Unit => c)
        (PoolState.mk [none, none] [some 0, some 1] [(), ()]) (some 1) =
      some (PoolState.mk [some 1, none] [some 0, none] [(), ()]) by decide)

/-- C5 amended: release-then-immediate-reacquire returns the released
instance exactly when the FIRST `_available` slot is empty at release time
(in particular whenever the pool is fully exhausted); in general the
re-acquire returns the instance held by the first non-empty `_available`
slot, which need not be the one just released. -/
theorem release_reacquire_first_slot {C : Type} {N : Nat} {rst : C → C}
    {d : C} {s : PoolState C} {v : Nat} (hreach : Reachable N rst d s)
    (hmem : (some v : ORef) ∈ s.inUse)
    (hfirst : s.available.getD 0 none = none) :
    exists s1 s2, release rst s (some v) = some s1 /\
      acquire s1 = some (some v, s2) := by
  have hInv := inv_reachable hreach
  rcases release_success_spec rst hInv hmem with
    ⟨j, i, hfu, hfa, hvi, hvj, hvN, hrel⟩
  have hlenpos : 0 < s.available.length := by
    have := hInv.lenAvail
    have hN : 0 < N := by omega
    omega
  have hfa0 : findSlot (fun o : ORef => o == none) s.available = some 0 :=
    findSlot_head_true none hlenpos (by simp only [beq_iff_eq]; exact hfirst)
  rw [hfa0] at hfa
  have hi0 : i = 0 := by
    have := hfa
    simp only [Option.some.injEq] at this
    omega
  subst hi0
  set s1 : PoolState C :=
    PoolState.mk (s.available.set 0 (some v)) (s.inUse.set j none)
      (modifyAt rst v s.content) with hs1
  have hj : j < s.inUse.length := findSlot_lt_length hfu
  have hhead : s1.available.getD 0 none = some v := by
    rw [hs1]
    exact getD_set_self (some v) none hlenpos
  have hfa1 : findSlot (fun o : ORef => o.isSome) s1.available = some 0 := by
    refine findSlot_head_true none ?_ (by rw [hhead]; rfl)
    rw [hs1]
    simpa using hlenpos
  have hnone_mem : (none : ORef) ∈ s1.inUse := by
    rw [hs1]
    show (none : ORef) ∈ s.inUse.set j none
    have hget : (s.inUse.set j none).getD j none = none :=
      getD_set_self none none hj
    have hjlen : j < (s.inUse.set j none).length := by simpa using hj
    have hmm := getD_mem none hjlen
    rwa [hget] at hmm
  have hfu1 : (findSlot (fun o : ORef => o == none) s1.inUse).isSome = true :=
    findSlot_isSome_of_mem hnone_mem (by simp)
  rcases Option.isSome_iff_exists.mp hfu1 with ⟨j1, hfu1'⟩
  exact ⟨s1, _, hrel, acquire_structural hfa1 hhead hfu1'⟩

theorem release_reacquire_first_slot_witness :
    (some 0 : ORef) ∈ (PoolState.mk [none] [some 0] [()] : PoolState Unit).inUse /\
    (PoolState.mk [none] [some 0] [()] : PoolState Unit).available.getD 0 none = none /\
    exists s1 s2,
      release (fun c : Unit => c) (PoolState.mk [none] [some 0] [()]) (some 0) = some s1 /\
      acquire s1 = some (some 0, s2) := by
  have hr : Reachable 1 (fun c : Unit => c) ()
      (PoolState.mk [none] [some 0] [()]) :=
    Reachable.step_acquire Reachable.init
      (show acquire (initPool 1 ()) =
          some (some 0, PoolState.mk [none] [some 0] [()]) by decide)
  exact ⟨by decide, by decide,
    release_reacquire_first_slot hr (by decide) (by decide)⟩

/-- C6: in any reachable state with fewer than `N` outstanding loans (i.e.
along any call sequence that never tries to exceed `N` simultaneous loans),
`acquire` does not report exhaustion: it succeeds and returns one of the
`N` originally constructed instances, reaching another valid state. -/
theorem under_capacity_acquire_succeeds {C : Type} {N : Nat} {rst : C → C}
    {d : C} {s : PoolState C} (hreach : Reachable N rst d s)
    (hload : numInUse s < N) :
    exists v s1, acquire s = some (some v, s1) /\ v < N /\
      Reachable N rst d s1 := by
  have hInv := inv_reachable hreach
  have hpos : 0 < numAvailable s := by
    have := hInv.sum_eq
    omega
  rcases acquire_of_avail hInv hpos with ⟨v, s1, hacq, hvN, _, _, _, _, _⟩
  exact ⟨v, s1, hacq, hvN, Reachable.step_acquire hreach hacq⟩

theorem under_capacity_acquire_succeeds_witness :
    numInUse (initPool 1 ()) < 1 /\
    exists v s1, acquire (initPool 1 ()) = some (some v, s1) /\ v < 1 /\
      Reachable 1 (fun c : Unit => c) () s1 :=
  ⟨by decide, under_capacity_acquire_succeeds
    (Reachable.init : Reachable 1 (fun c : Unit => c) () (initPool 1 ())) (by decide)⟩

/-! ## Reset timing (C7) -/

theorem acquire_content {C : Type} {s s1 : PoolState C} {r : ORef}
    (h : acquire s = some (r, s1)) : s1.content = s.content := by
  unfold acquire at h
  cases hfa : findSlot (fun o : ORef => o.isSome) s.available with
  | none =>
    rw [hfa] at h
    simp only [Option.some.injEq, Prod.mk.injEq] at h
    rw [<- h.2]
  | some i =>
    rw [hfa] at h
    cases hfu : findSlot (fun o : ORef => o == none) s.inUse with
    | none => rw [hfu] at h; simp at h
    | some j =>
      rw [hfu] at h
      simp only [Option.some.injEq, Prod.mk.injEq] at h
      rw [<- h.2]

/-- C7: `reset()` runs exactly once, on exactly the released instance, per
`release()` call whose argument is currently lent out — the released slot's
content becomes `rst` of its old content and every other instance's content
is untouched — while a successful (or exhausted) `acquire()` never resets
anything: it leaves the whole content vector unchanged. -/
theorem reset_exactly_on_release {C : Type} {N : Nat} {rst : C → C} {d : C}
    {s : PoolState C} {v : Nat} (hreach : Reachable N rst d s) :
    ((some v : ORef) ∈ s.inUse ->
      exists s1, release rst s (some v) = some s1 /\
        s1.content.getD v d = rst (s.content.getD v d) /\
        (∀ w, ¬ w = v → s1.content.getD w d = s.content.getD w d)) /\
    (∀ r s1, acquire s = some (r, s1) → s1.content = s.content) := by
  have hInv := inv_reachable hreach
  constructor
  · intro hmem
    rcases release_success_spec rst hInv hmem with
      ⟨j, i, _, _, _, _, hvN, hrel⟩
    refine ⟨_, hrel, ?_, ?_⟩
    · show (modifyAt rst v s.content).getD v d = rst (s.content.getD v d)
      refine getD_modifyAt_eq rst s.content v d ?_
      rw [hInv.lenContent]
      omega
    · intro w hw
      show (modifyAt rst v s.content).getD w d = s.content.getD w d
      exact getD_modifyAt_ne rst s.content v w d hw
  · intro r s1 h
    exact acquire_content h

theorem reset_exactly_on_release_witness :
    (some 0 : ORef) ∈ (PoolState.mk [none] [some 0] [()] : PoolState Unit).inUse /\
    (((some 0 : ORef) ∈ (PoolState.mk [none] [some 0] [()] : PoolState Unit).inUse ->
      exists s1, release (fun c : Unit => c)
          (PoolState.mk [none] [some 0] [()]) (some 0) = some s1 /\
        s1.content.getD 0 () = (fun c : Unit => c) ((PoolState.mk [none] [some 0] [()] : PoolState Unit).content.getD 0 ()) /\
        (∀ w, ¬ w = 0 ->
          s1.content.getD w () = (PoolState.mk [none] [some 0] [()] : PoolState Unit).content.getD w ())) /\
    (∀ r s1,
        acquire (PoolState.mk [none] [some 0] [()] : PoolState Unit) = some (r, s1) ->
        s1.content = (PoolState.mk [none] [some 0] [()] : PoolState Unit).content)) := by
  have hr : Reachable 1 (fun c : Unit => c) ()
      (PoolState.mk [none] [some 0] [()]) :=
    Reachable.step_acquire Reachable.init
      (show acquire (initPool 1 ()) =
          some (some 0, PoolState.mk [none] [some 0] [()]) by decide)
  exact ⟨by decide, reset_exactly_on_release hr⟩

/-- C8: the concrete capacity-2 scenario of the test case in
`src/StackVsHeapAlloc.cpp`, extended per the spec: a1 and a2 succeed
(non-null), a3 is the null exhaustion signal, and after releasing a1 and a2
in turn the re-acquires return a4 == a1 and a5 == a2. -/
theorem capacity_two_scenario :
    acquire (initPool 2 ()) =
      some (some 0, PoolState.mk [none, some 1] [some 0, none] [(), ()]) /\
    acquire (PoolState.mk [none, some 1] [some 0, none] [(), ()] : PoolState Unit) =
      some (some 1, PoolState.mk [none, none] [some 0, some 1] [(), ()]) /\
    acquire (PoolState.mk [none, none] [some 0, some 1] [(), ()] : PoolState Unit) =
      some (none, PoolState.mk [none, none] [some 0, some 1] [(), ()]) /\
    release (fun c : Unit => c)
        (PoolState.mk [none, none] [some 0, some 1] [(), ()]) (some 0) =
      some (PoolState.mk [some 0, none] [none, some 1] [(), ()]) /\
    acquire (PoolState.mk [some 0, none] [none, some 1] [(), ()] : PoolState Unit) =
      some (some 0, PoolState.mk [none, none] [some 0, some 1] [(), ()]) /\
    release (fun c : Unit => c)
        (PoolState.mk [none, none] [some 0, some 1] [(), ()]) (some 1) =
      some (PoolState.mk [some 1, none] [some 0, none] [(), ()]) /\
    acquire (PoolState.mk [some 1, none] [some 0, none] [(), ()] : PoolState Unit) =
      some (some 1, PoolState.mk [none, none] [some 0, some 1] [(), ()]) /\
    ¬ (some 0 : ORef) = none /\ ¬ (some 1 : ORef) = none := by
  decide

/-! ## The unchecked scans (C10) -/

/-- C10 counterexample: the claim fails for `release(nullptr)`.  On a
freshly constructed (fully available) pool of capacity 1 the argument
`nullptr` IS found by the scan of `_inUse` (slot 0 holds the null marker),
yet the subsequent scan of `_available` for an empty slot reaches the end
iterator: the unchecked write `*iter = mem` is out of bounds. -/
theorem scan_failure_counterexample :
    Reachable 1 (fun c : Unit => c) () (initPool 1 ()) /\
    findSlot (fun o : ORef => o == (none : ORef)) (initPool 1 ()).inUse = some 0 /\
    findSlot (fun o : ORef => o == (none : ORef)) (initPool 1 ()).available = none :=
  ⟨Reachable.init, by decide, by decide⟩

/-- C10 amended: in every reachable pool state the unchecked scans succeed
for genuine object pointers: in `acquire`, once `_available` holds a
non-null pointer the scan of `_inUse` finds an empty slot; in `release`,
once the (non-null) argument is found in `_inUse` the scan of `_available`
finds an empty slot.  Only `release(nullptr)` — whose argument the `_inUse`
scan can find as the empty marker — can make the `_available` scan fail. -/
theorem scans_succeed_for_real_pointers {C : Type} {N : Nat} {rst : C → C}
    {d : C} {s : PoolState C} (hreach : Reachable N rst d s) :
    ((findSlot (fun o : ORef => o.isSome) s.available).isSome = true ->
      (findSlot (fun o : ORef => o == none) s.inUse).isSome = true) /\
    (∀ v : Nat, (some v : ORef) ∈ s.inUse ->
      (findSlot (fun o : ORef => o == none) s.available).isSome = true) := by
  have hInv := inv_reachable hreach
  constructor
  · intro hav
    rcases Option.isSome_iff_exists.mp hav with ⟨i, hfa⟩
    have hi : i < s.available.length := findSlot_lt_length hfa
    have hv : (s.available.getD i none).isSome = true := findSlot_getD none hfa
    have hpos : 0 < numAvailable s :=
      List.countP_pos_iff.mpr ⟨s.available.getD i none, getD_mem none hi, hv⟩
    have hlt : s.inUse.countP (fun o : ORef => o.isSome) < s.inUse.length := by
      have := hInv.sum_eq
      have hlen := hInv.lenInUse
      simp only [numAvailable, numInUse] at this hpos
      omega
    rcases exists_not_of_countP_lt hlt with ⟨y, hy, hpy⟩
    have hynone : y = none := by
      cases y with
      | none => rfl
      | some w => simp at hpy
    exact findSlot_isSome_of_mem hy (by rw [hynone]; rfl)
  · intro v hmem
    rcases release_success_spec rst hInv hmem with ⟨j, i, _, hfa, _, _, _, _⟩
    rw [hfa]
    rfl

theorem scans_succeed_for_real_pointers_witness :
    ((findSlot (fun o : ORef => o.isSome) (initPool 1 ()).available).isSome = true ->
      (findSlot (fun o : ORef => o == none) (initPool 1 ()).inUse).isSome = true) /\
    (∀ v : Nat, (some v : ORef) ∈ (initPool 1 ()).inUse ->
      (findSlot (fun o : ORef => o == none) (initPool 1 ()).available).isSome = true) :=
  scans_succeed_for_real_pointers
    (Reachable.init : Reachable 1 (fun c : Unit => c) () (initPool 1 ()))

/-! ## The `std::multiset`-based pool of `src/MultisetPool.h` -/

/-- Strict comparison of pointers as `std::multiset<OBJ*>` (with
`std::less<OBJ*>`) orders them.  The relative order of distinct heap
allocations is implementation-defined in the source; the model fixes the
canonical layout: the null pointer sorts first and instance addresses
follow construction order (`new` order). -/
def refLt : ORef → ORef → Bool
  | none, none => false
  | none, some _ => true
  | some _, none => false
  | some v, some w => decide (v < w)

/-- `std::multiset::insert`: place `x` at its ordered position (after any
elements equal to it). -/
def minsert (x : ORef) : List ORef → List ORef
  | [] => [x]
  | y :: ys => if refLt x y then x :: y :: ys else y :: minsert x ys

/-- State of the `Pool<OBJ, NUM_OBJS>` of `src/MultisetPool.h`: the
`_available` and `_inUse` multisets of object pointers (kept in sorted
iteration order), plus the instance contents. -/
structure MPoolState (C : Type) where
  mavailable : List ORef
  minUse : List ORef
  mcontent : List C
deriving DecidableEq

/-- The multiset pool constructor: a loop that, for `i = 0 .. N-1`, inserts
a newly constructed object into `_available` and a null marker into
`_inUse`. -/
def minit {C : Type} (N : Nat) (d : C) : MPoolState C :=
  (List.range N).foldl
    (fun s i =>
      MPoolState.mk (minsert (some i) s.mavailable) (minsert none s.minUse)
        (s.mcontent ++ [d]))
    (MPoolState.mk [] [] [])

/-- `acquire()` of the multiset pool: find the first non-null pointer in
iteration order, erase it and insert a null marker into `_available`; then
find a null marker in `_inUse`, erase it and insert the pointer.  The
erase of a possibly-end iterator is unchecked in the source, hence the
outer `none` for that undefined case. -/
def macquire {C : Type} (s : MPoolState C) : Option (ORef × MPoolState C) :=
  match findSlot (fun o => o.isSome) s.mavailable with
  | none => some (none, s)
  | some i =>
    let mem := s.mavailable.getD i none
    let mavail := minsert none (s.mavailable.eraseIdx i)
    match findSlot (fun o => o == none) s.minUse with
    | none => none
    | some j =>
      some (mem, MPoolState.mk mavail (minsert mem (s.minUse.eraseIdx j)) s.mcontent)

/-- `release(obj)` of the multiset pool, mirroring the array version:
silent return when `obj` is not found in `_inUse`; otherwise reset (null
`obj` makes this undefined behaviour), move the null marker to `_inUse`
and the pointer back to `_available`, with the unchecked erase of a
possibly-end iterator again modelled as undefined (`none`). -/
def mrelease {C : Type} (rst : C → C) (s : MPoolState C) (obj : ORef) :
    Option (MPoolState C) :=
  match findSlot (fun o => o == obj) s.minUse with
  | none => some s
  | some j =>
    match obj with
    | none => none
    | some v =>
      let minU := minsert none (s.minUse.eraseIdx j)
      match findSlot (fun o => o == none) s.mavailable with
      | none => none
      | some i =>
        some (MPoolState.mk (minsert (some v) (s.mavailable.eraseIdx i)) minU
          (modifyAt rst v s.mcontent))

/-- A call script: the benchmark/test drives both pool variants with the
same sequence of `acquire()` and `release(r)` calls. -/
inductive PoolOp where
  | opAcquire : PoolOp
  | opRelease : ORef → PoolOp
deriving DecidableEq

/-- Run a call script against the array-based pool, collecting the pointer
returned by every `acquire()`. -/
def runOps {C : Type} (rst : C → C) : List PoolOp → PoolState C ->
    Option (PoolState C × List ORef)
  | [], s => some (s, [])
  | PoolOp.opAcquire :: ops, s =>
    match acquire s with
    | none => none
    | some (r, s1) =>
      match runOps rst ops s1 with
      | none => none
      | some (s2, rs) => some (s2, r :: rs)
  | PoolOp.opRelease x :: ops, s =>
    match release rst s x with
    | none => none
    | some s1 => runOps rst ops s1

/-- Run a call script against the multiset-based pool. -/
def mrunOps {C : Type} (rst : C → C) : List PoolOp → MPoolState C ->
    Option (MPoolState C × List ORef)
  | [], s => some (s, [])
  | PoolOp.opAcquire :: ops, s =>
    match macquire s with
    | none => none
    | some (r, s1) =>
      match mrunOps rst ops s1 with
      | none => none
      | some (s2, rs) => some (s2, r :: rs)
  | PoolOp.opRelease x :: ops, s =>
    match mrelease rst s x with
    | none => none
    | some s1 => mrunOps rst ops s1

/-- C9 counterexample: the two implementations are NOT observationally
equivalent.  On capacity-2 pools, the script acquire, acquire,
release(second), release(first), acquire makes the final acquire return
instance 1 from the array pool (first-fit over slots) but instance 0 from
the multiset pool (minimum surviving address) — even under the most
favourable address layout, in which both pools agree on release-free
prefixes. -/
theorem pool_multiset_divergence :
    (runOps (fun c : Unit => c)
        [PoolOp.opAcquire, PoolOp.opAcquire, PoolOp.opRelease (some 1),
          PoolOp.opRelease (some 0), PoolOp.opAcquire]
        (initPool 2 ())).map (fun p => p.2) = some [some 0, some 1, some 1] /\
    (mrunOps (fun c : Unit => c)
        [PoolOp.opAcquire, PoolOp.opAcquire, PoolOp.opRelease (some 1),
          PoolOp.opRelease (some 0), PoolOp.opAcquire]
        (minit 2 ())).map (fun p => p.2) = some [some 0, some 1, some 0] /\
    ¬ ([some 0, some 1, some 1] : List ORef) = [some 0, some 1, some 0] := by
  refine ⟨by decide, by decide, by decide⟩

/-! ## Acquire-only equivalence of the two implementations (C9 amended) -/

/-- `k` consecutive `acquire()` calls on the multiset pool. -/
def mrunAcquires {C : Type} : Nat → MPoolState C → Option (MPoolState C × List ORef)
  | 0, s => some (s, [])
  | k + 1, s =>
    match macquire s with
    | none => none
    | some (r, s1) =>
      match mrunAcquires k s1 with
      | none => none
      | some (s2, rs) => some (s2, r :: rs)

/-- The state of the array pool after `j` acquisitions from a fresh pool
that still has `r` free instances (`N = j + r`). -/
def arrayStage {C : Type} (d : C) (j r : Nat) : PoolState C :=
  PoolState.mk (List.replicate j none ++ (List.range' j r).map some)
    ((List.range j).map some ++ List.replicate r none)
    (List.replicate (j + r) d)

/-- The state of the multiset pool after `j` acquisitions from a fresh pool
that still has `r` free instances (`N = j + r`). -/
def mStage {C : Type} (d : C) (j r : Nat) : MPoolState C :=
  MPoolState.mk (List.replicate j none ++ (List.range' j r).map some)
    (List.replicate r none ++ (List.range j).map some)
    (List.replicate (j + r) d)

/-- The pointers returned by `k` acquisitions from stage `(j, r)`: the next
`r` instances in construction order, then null exhaustion signals. -/
def acqOut : Nat → Nat → Nat → List ORef
  | _, _, 0 => []
  | j, 0, k + 1 => none :: acqOut j 0 k
  | j, r + 1, k + 1 => some j :: acqOut (j + 1) r k

theorem findSlot_append_false {a : Type} {p : a → Bool} :
    ∀ {l1 : List a}, (∀ x ∈ l1, p x = false) → ∀ (l2 : List a),
      findSlot p (l1 ++ l2) = (findSlot p l2).map (· + l1.length) := by
  intro l1
  induction l1 with
  | nil =>
    intro _ l2
    cases h2 : findSlot p l2 <;> simp [h2]
  | cons y ys ih =>
    intro h l2
    have hy : p y = false := h y (List.mem_cons_self y ys)
    have hys := ih (fun x hx => h x (List.mem_cons_of_mem y hx)) l2
    simp only [List.cons_append, findSlot, hy, Bool.false_eq_true, if_false, hys]
    cases h2 : findSlot p l2 with
    | none => simp [hys, h2]
    | some a => simp [hys, h2, Nat.add_assoc]

theorem getD_append_length {a : Type} :
    ∀ (l1 : List a) (y : a) (l2 : List a) (dd : a),
      (l1 ++ y :: l2).getD l1.length dd = y := by
  intro l1
  induction l1 with
  | nil => intro y l2 dd; rfl
  | cons z zs ih => intro y l2 dd; simpa using ih y l2 dd

theorem set_append_length {a : Type} :
    ∀ (l1 : List a) (y b : a) (l2 : List a),
      (l1 ++ y :: l2).set l1.length b = l1 ++ b :: l2 := by
  intro l1
  induction l1 with
  | nil => intro y b l2; rfl
  | cons z zs ih => intro y b l2; simp [List.set, ih y b l2]

theorem eraseIdx_append_length {a : Type} :
    ∀ (l1 : List a) (y : a) (l2 : List a),
      (l1 ++ y :: l2).eraseIdx l1.length = l1 ++ l2 := by
  intro l1
  induction l1 with
  | nil => intro y l2; rfl
  | cons z zs ih => intro y l2; simpa using ih y l2

theorem refLt_none_right : ∀ (x : ORef), refLt x none = false := by
  intro x
  cases x <;> rfl

theorem minsert_skip {x : ORef} :
    ∀ {l1 : List ORef}, (∀ y ∈ l1, refLt x y = false) ->
      ∀ (l2 : List ORef), minsert x (l1 ++ l2) = l1 ++ minsert x l2 := by
  intro l1
  induction l1 with
  | nil => intro _ l2; rfl
  | cons y ys ih =>
    intro h l2
    have hy : refLt x y = false := h y (List.mem_cons_self y ys)
    have hys := ih (fun z hz => h z (List.mem_cons_of_mem y hz)) l2
    simp [minsert, hy, hys]

theorem minsert_none_map_some (L : List Nat) :
    minsert none (L.map some) = none :: L.map some := by
  cases L with
  | nil => rfl
  | cons a L1 => simp [minsert, refLt]

/-- A single acquisition advances the array pool from stage `(j, r+1)` to
stage `(j+1, r)`, returning instance `j`. -/
theorem acquire_arrayStage_step {C : Type} (d : C) (j r : Nat) :
    acquire (arrayStage d j (r + 1)) = some (some j, arrayStage d (j + 1) r) := by
  have hrepl : ∀ x ∈ List.replicate j (none : ORef),
      (fun o : ORef => o.isSome) x = false := by
    intro x hx
    rw [List.eq_of_mem_replicate hx]
    rfl
  have hmap : ∀ x ∈ (List.range j).map (some : Nat → ORef),
      (fun o : ORef => o == none) x = false := by
    intro x hx
    rcases List.mem_map.mp hx with ⟨w, _, rfl⟩
    simp
  have hfa : findSlot (fun o : ORef => o.isSome) (arrayStage d j (r + 1)).available = some j := by
    show findSlot _ (List.replicate j none ++ (List.range' j (r + 1)).map some) = some j
    rw [findSlot_append_false hrepl, List.range'_succ]
    simp [findSlot]
  have hv : (arrayStage d j (r + 1)).available.getD j none = some j := by
    show (List.replicate j none ++ (List.range' j (r + 1)).map some).getD j none = some j
    rw [List.range'_succ]
    simp only [List.map_cons]
    have := getD_append_length (List.replicate j (none : ORef)) (some j)
      ((List.range' (j + 1) r).map some) none
    simpa using this
  have hfu : findSlot (fun o : ORef => o == none) (arrayStage d j (r + 1)).inUse = some j := by
    show findSlot _ ((List.range j).map some ++ List.replicate (r + 1) none) = some j
    rw [findSlot_append_false hmap, List.replicate_succ]
    simp [findSlot]
  have h := acquire_structural hfa hv hfu
  have havail : (arrayStage d j (r + 1)).available.set j none =
      (arrayStage d (j + 1) r).available := by
    show (List.replicate j none ++ (List.range' j (r + 1)).map some).set j none =
      List.replicate (j + 1) none ++ (List.range' (j + 1) r).map some
    rw [List.range'_succ]
    simp only [List.map_cons]
    have := set_append_length (List.replicate j (none : ORef)) (some j) none
      ((List.range' (j + 1) r).map some)
    rw [List.length_replicate] at this
    rw [this, List.replicate_succ' j, List.append_assoc]
    rfl
  have huse : (arrayStage d j (r + 1)).inUse.set j (some j) =
      (arrayStage d (j + 1) r).inUse := by
    show ((List.range j).map some ++ List.replicate (r + 1) none).set j (some j) =
      (List.range (j + 1)).map some ++ List.replicate r none
    rw [List.replicate_succ]
    have := set_append_length ((List.range j).map (some : Nat → ORef)) none (some j)
      (List.replicate r none)
    rw [List.length_map, List.length_range] at this
    rw [this, List.range_succ, List.map_append, List.append_assoc]
    rfl
  have hcont : (arrayStage d j (r + 1)).content = (arrayStage d (j + 1) r).content := by
    show List.replicate (j + (r + 1)) d = List.replicate ((j + 1) + r) d
    rw [show j + (r + 1) = (j + 1) + r by omega]
  rw [h, havail, huse, hcont]

/-- An acquisition from an exhausted array stage returns the null signal. -/
theorem acquire_arrayStage_exhausted {C : Type} (d : C) (j : Nat) :
    acquire (arrayStage d j 0) = some (none, arrayStage d j 0) := by
  have havail : (arrayStage d j 0).available = List.replicate j none := by
    show List.replicate j (none : ORef) ++ (List.range' j 0).map some = _
    simp
  have hall : ∀ x ∈ (arrayStage d j 0).available,
      (fun o : ORef => o.isSome) x = false := by
    intro x hx
    rw [havail] at hx
    rw [List.eq_of_mem_replicate hx]
    rfl
  unfold acquire
  rw [findSlot_eq_none_of hall]

theorem macquire_structural {C : Type} {s : MPoolState C} {i j : Nat} {v : Nat}
    (hfa : findSlot (fun o : ORef => o.isSome) s.mavailable = some i)
    (hv : s.mavailable.getD i none = some v)
    (hfu : findSlot (fun o : ORef => o == none) s.minUse = some j) :
    macquire s = some (some v,
      MPoolState.mk (minsert none (s.mavailable.eraseIdx i))
        (minsert (some v) (s.minUse.eraseIdx j)) s.mcontent) := by
  unfold macquire
  rw [hfa, hfu]
  simp only [hv]

/-- A single acquisition advances the multiset pool from stage `(j, r+1)`
to stage `(j+1, r)`, returning instance `j` — the same instance as the
array pool at the same stage. -/
theorem macquire_mStage_step {C : Type} (d : C) (j r : Nat) :
    macquire (mStage d j (r + 1)) = some (some j, mStage d (j + 1) r) := by
  have hrepl : ∀ x ∈ List.replicate j (none : ORef),
      (fun o : ORef => o.isSome) x = false := by
    intro x hx
    rw [List.eq_of_mem_replicate hx]
    rfl
  have hfa : findSlot (fun o : ORef => o.isSome) (mStage d j (r + 1)).mavailable = some j := by
    show findSlot _ (List.replicate j none ++ (List.range' j (r + 1)).map some) = some j
    rw [findSlot_append_false hrepl, List.range'_succ]
    simp [findSlot]
  have hv : (mStage d j (r + 1)).mavailable.getD j none = some j := by
    show (List.replicate j none ++ (List.range' j (r + 1)).map some).getD j none = some j
    rw [List.range'_succ]
    simp only [List.map_cons]
    have := getD_append_length (List.replicate j (none : ORef)) (some j)
      ((List.range' (j + 1) r).map some) none
    simpa using this
  have hfu : findSlot (fun o : ORef => o == none) (mStage d j (r + 1)).minUse = some 0 := by
    show findSlot _ (List.replicate (r + 1) none ++ (List.range j).map some) = some 0
    rw [List.replicate_succ]
    simp [findSlot]
  have havail : minsert none ((mStage d j (r + 1)).mavailable.eraseIdx j) =
      (mStage d (j + 1) r).mavailable := by
    show minsert none ((List.replicate j none ++ (List.range' j (r + 1)).map some).eraseIdx j) =
      List.replicate (j + 1) none ++ (List.range' (j + 1) r).map some
    rw [List.range'_succ]
    simp only [List.map_cons]
    have he := eraseIdx_append_length (List.replicate j (none : ORef)) (some j)
      ((List.range' (j + 1) r).map some)
    rw [List.length_replicate] at he
    rw [he]
    have hsk : ∀ y ∈ List.replicate j (none : ORef), refLt none y = false := by
      intro y hy
      rw [List.eq_of_mem_replicate hy]
      rfl
    rw [minsert_skip hsk, minsert_none_map_some, List.replicate_succ' j, List.append_assoc]
    rfl
  have huse : minsert (some j) ((mStage d j (r + 1)).minUse.eraseIdx 0) =
      (mStage d (j + 1) r).minUse := by
    show minsert (some j) ((List.replicate (r + 1) none ++ (List.range j).map some).eraseIdx 0) =
      List.replicate r none ++ (List.range (j + 1)).map some
    rw [List.replicate_succ]
    simp only [List.cons_append, List.eraseIdx_cons_zero]
    have hsk : ∀ y ∈ List.replicate r (none : ORef) ++ (List.range j).map some,
        refLt (some j) y = false := by
      intro y hy
      rcases List.mem_append.mp hy with hy | hy
      · rw [List.eq_of_mem_replicate hy]
        rfl
      · rcases List.mem_map.mp hy with ⟨w, hw, rfl⟩
        have hwj : w < j := List.mem_range.mp hw
        simp only [refLt, decide_eq_false_iff_not]
        omega
    have h0 := minsert_skip hsk []
    rw [List.append_nil] at h0
    rw [h0, List.append_assoc, List.range_succ, List.map_append]
    rfl
  have hcont : (mStage d j (r + 1)).mcontent = (mStage d (j + 1) r).mcontent := by
    show List.replicate (j + (r + 1)) d = List.replicate ((j + 1) + r) d
    rw [show j + (r + 1) = (j + 1) + r by omega]
  rw [macquire_structural hfa hv hfu, havail, huse, hcont]

/-- An acquisition from an exhausted multiset stage returns the null
signal. -/
theorem macquire_mStage_exhausted {C : Type} (d : C) (j : Nat) :
    macquire (mStage d j 0) = some (none, mStage d j 0) := by
  have havail : (mStage d j 0).mavailable = List.replicate j none := by
    show List.replicate j (none : ORef) ++ (List.range' j 0).map some = _
    simp
  have hall : ∀ x ∈ (mStage d j 0).mavailable,
      (fun o : ORef => o.isSome) x = false := by
    intro x hx
    rw [havail] at hx
    rw [List.eq_of_mem_replicate hx]
    rfl
  unfold macquire
  rw [findSlot_eq_none_of hall]

theorem runAcquires_arrayStage {C : Type} (d : C) :
    ∀ (k j r : Nat),
      (runAcquires k (arrayStage d j r)).map (fun p => p.2) = some (acqOut j r k) := by
  intro k
  induction k with
  | zero => intro j r; simp [runAcquires, acqOut]
  | succ m ih =>
    intro j r
    cases r with
    | zero =>
      have ihm := ih j 0
      simp only [runAcquires, acquire_arrayStage_exhausted d j]
      cases hrk : runAcquires m (arrayStage d j 0) with
      | none =>
        rw [hrk] at ihm
        simp at ihm
      | some p =>
        obtain ⟨s2, rs⟩ := p
        rw [hrk] at ihm
        simp at ihm
        simp [acqOut, ihm]
    | succ rr =>
      have ihm := ih (j + 1) rr
      simp only [runAcquires, acquire_arrayStage_step d j rr]
      cases hrk : runAcquires m (arrayStage d (j + 1) rr) with
      | none =>
        rw [hrk] at ihm
        simp at ihm
      | some p =>
        obtain ⟨s2, rs⟩ := p
        rw [hrk] at ihm
        simp at ihm
        simp [acqOut, ihm]

theorem mrunAcquires_mStage {C : Type} (d : C) :
    ∀ (k j r : Nat),
      (mrunAcquires k (mStage d j r)).map (fun p => p.2) = some (acqOut j r k) := by
  intro k
  induction k with
  | zero => intro j r; simp [mrunAcquires, acqOut]
  | succ m ih =>
    intro j r
    cases r with
    | zero =>
      have ihm := ih j 0
      simp only [mrunAcquires, macquire_mStage_exhausted d j]
      cases hrk : mrunAcquires m (mStage d j 0) with
      | none =>
        rw [hrk] at ihm
        simp at ihm
      | some p =>
        obtain ⟨s2, rs⟩ := p
        rw [hrk] at ihm
        simp at ihm
        simp [acqOut, ihm]
    | succ rr =>
      have ihm := ih (j + 1) rr
      simp only [mrunAcquires, macquire_mStage_step d j rr]
      cases hrk : mrunAcquires m (mStage d (j + 1) rr) with
      | none =>
        rw [hrk] at ihm
        simp at ihm
      | some p =>
        obtain ⟨s2, rs⟩ := p
        rw [hrk] at ihm
        simp at ihm
        simp [acqOut, ihm]

theorem initPool_eq_arrayStage {C : Type} (N : Nat) (d : C) :
    initPool N d = arrayStage d 0 N := by
  unfold initPool arrayStage
  rw [List.range_eq_range']
  simp

theorem minit_eq_mStage {C : Type} (N : Nat) (d : C) :
    minit N d = mStage d 0 N := by
  induction N with
  | zero => rfl
  | succ n ih =>
    unfold minit at ih ⊢
    rw [List.range_succ, List.foldl_append]
    rw [ih]
    simp only [List.foldl_cons, List.foldl_nil]
    have h1 : minsert (some n) ((List.range' 0 n).map some) =
        (List.range' 0 (n + 1)).map some := by
      rw [← List.range_eq_range', ← List.range_eq_range']
      have hsk : ∀ y ∈ (List.range n).map (some : Nat → ORef),
          refLt (some n) y = false := by
        intro y hy
        rcases List.mem_map.mp hy with ⟨w, hw, rfl⟩
        have hwn : w < n := List.mem_range.mp hw
        simp only [refLt, decide_eq_false_iff_not]
        omega
      have h0 := minsert_skip hsk []
      rw [List.append_nil] at h0
      rw [h0, List.range_succ, List.map_append]
      rfl
    have h2 : minsert none (List.replicate n (none : ORef)) =
        List.replicate (n + 1) (none : ORef) := by
      have hsk : ∀ y ∈ List.replicate n (none : ORef), refLt none y = false := by
        intro y hy
        rw [List.eq_of_mem_replicate hy]
        rfl
      have h0 := minsert_skip hsk []
      rw [List.append_nil] at h0
      rw [h0, List.replicate_succ' n]
      rfl
    have e1 : minsert (some n) (mStage d 0 n).mavailable =
        (mStage d 0 (n + 1)).mavailable := by
      show minsert (some n) (List.replicate 0 none ++ (List.range' 0 n).map some) =
        List.replicate 0 none ++ (List.range' 0 (n + 1)).map some
      simpa using h1
    have e2 : minsert none (mStage d 0 n).minUse = (mStage d 0 (n + 1)).minUse := by
      show minsert none (List.replicate n none ++ (List.range 0).map some) =
        List.replicate (n + 1) none ++ (List.range 0).map some
      simpa using h2
    have e3 : (mStage d 0 n).mcontent ++ [d] = (mStage d 0 (n + 1)).mcontent := by
      show List.replicate (0 + n) d ++ [d] = List.replicate (0 + (n + 1)) d
      rw [Nat.zero_add, Nat.zero_add, ← List.replicate_succ' n d]
    show MPoolState.mk (minsert (some n) (mStage d 0 n).mavailable)
        (minsert none (mStage d 0 n).minUse) ((mStage d 0 n).mcontent ++ [d]) =
      mStage d 0 (n + 1)
    rw [e1, e2, e3]

/-- C9 amended: the two implementations are observationally equivalent on
release-free call sequences (under the canonical address layout in which
allocation addresses follow construction order): `k` consecutive
acquisitions from fresh capacity-`N` pools return identical pointer
sequences — the instances in construction order, then identical null
exhaustion signals.  Once `release` calls are interleaved the returned
instances may diverge (see the divergence counterexample). -/
theorem pool_multiset_acquire_equiv {C : Type} (N k : Nat) (d : C) :
    (runAcquires k (initPool N d)).map (fun p => p.2) =
      (mrunAcquires k (minit N d)).map (fun p => p.2) := by
  rw [initPool_eq_arrayStage, minit_eq_mStage, runAcquires_arrayStage,
    mrunAcquires_mStage]

end PoolModel
